import Mathlib

/-!
Verification of the `asset_manager` portfolio valuation engine.

This file is a shallow embedding of the engine's core computations:

* `src/services/portfolio_engine.py` — `Lot`, `ClosedLot`, `TickerPosition`,
  `compute_position` (the per-ticker replay) and the live-data attachment of
  `compute_portfolio`;
* `src/services/dividend_service.py` — `calculate_dividends_received`;
* `src/services/fx_service.py` — `_fetch_fx_rate_yfinance` and
  `get_effective_fx_rate`;
* `src/models/transaction.py` — the row order produced by `get_transactions`
  (`ORDER BY date DESC, id DESC`) combined with the stable
  `sort(key=(ticker, date))` in `compute_portfolio`.

Modelling conventions:

* Python floats are modelled as exact rationals (`ℚ`); the literal `1e-9`
  used by the engine as a float-drift epsilon is kept as the rational
  `1 / 1000000000`.
* Dates are `YYYY-MM-DD` strings in the source and compare lexicographically,
  which coincides with chronological order; they are modelled as `Nat`
  ordinals.  Tickers and row ids are likewise modelled as `Nat`: only their
  total order matters to any statement below.
* Display-only string fields carried through unchanged by the engine
  (`broker`, `currency` on lots and closed lots, the `year` field of a
  dividend record) never enter a computed quantity and are omitted from the
  records.
* SQLite's `ORDER BY` on a key that is total for the rows at hand, and
  Python's `list.sort` / `sorted` (documented stable sorts), are modelled
  with `List.insertionSort`, which is a stable sort; stability is what the
  tie-break statements below are about.
* External collaborators (FX resolver, withholding-tax table, yfinance
  history frames) are passed as explicit parameters, matching their use as
  opaque lookups in the source.
-/

namespace AssetManager

/-- Transaction side, `side TEXT CHECK(side IN ('BUY','SELL'))` in
`src/db/schema.py`. -/
inductive Side where
  | buy
  | sell
deriving DecidableEq, Repr

/-- A transaction as consumed by `compute_position`
(`src/services/portfolio_engine.py`): the fields `date`, `side`, `price`,
`quantity` and the already-resolved `effective_fx_rate` set by
`compute_portfolio` line 218.  `ticker`/`broker`/`currency`/`notes` do not
enter the replay arithmetic and are omitted. -/
structure Txn where
  date : Nat
  side : Side
  price : ℚ
  quantity : ℚ
  fxRate : ℚ
deriving DecidableEq, Repr

/-- `Lot` (portfolio_engine.py lines 15-31): one purchase lot in the FIFO
queue.  The `currency` and `broker` strings are display-only and omitted. -/
structure Lot where
  date : Nat
  quantity : ℚ
  priceNative : ℚ
  fxRateToSgd : ℚ
deriving DecidableEq, Repr

/-- `Lot.cost_per_share_sgd`. -/
def Lot.costPerShareSgd (l : Lot) : ℚ := l.priceNative * l.fxRateToSgd

/-- `Lot.total_cost_sgd`. -/
def Lot.totalCostSgd (l : Lot) : ℚ := l.quantity * l.costPerShareSgd

/-- `ClosedLot` (portfolio_engine.py lines 34-57): the result of selling
shares from a FIFO lot.  `currency` and `broker` are display-only and
omitted. -/
structure ClosedLot where
  buyDate : Nat
  sellDate : Nat
  quantity : ℚ
  buyPriceNative : ℚ
  sellPriceNative : ℚ
  buyFxRate : ℚ
  sellFxRate : ℚ
deriving DecidableEq, Repr

/-- `ClosedLot.cost_sgd`. -/
def ClosedLot.costSgd (c : ClosedLot) : ℚ :=
  c.quantity * c.buyPriceNative * c.buyFxRate

/-- `ClosedLot.proceeds_sgd`. -/
def ClosedLot.proceedsSgd (c : ClosedLot) : ℚ :=
  c.quantity * c.sellPriceNative * c.sellFxRate

/-- `ClosedLot.realized_pnl_sgd`. -/
def ClosedLot.realizedPnlSgd (c : ClosedLot) : ℚ :=
  c.proceedsSgd - c.costSgd

/-- `TickerPosition` (portfolio_engine.py lines 60-73).  The metadata strings
(`ticker`, `name`, `currency`, `country`) and the dividend bookkeeping fields
are not needed by the claims settled here and are omitted; `dividends_net_sgd`
is handled separately via `calculateDividendsReceived`. -/
structure TickerPosition where
  openLots : List Lot
  closedLots : List ClosedLot
  livePrice : ℚ := 0
  liveFxRate : ℚ := 1
deriving DecidableEq, Repr

/-- `TickerPosition.shares` (line 75-77). -/
def TickerPosition.shares (p : TickerPosition) : ℚ :=
  (p.openLots.map (fun l => l.quantity)).sum

/-- Numerator of `TickerPosition.cost_basis_per_share_native` (line 87):
`total_cost = sum(lot.quantity * lot.price_native for lot in open_lots)`,
the remaining native-currency cost of the open position. -/
def TickerPosition.costBasisNative (p : TickerPosition) : ℚ :=
  (p.openLots.map (fun l => l.quantity * l.priceNative)).sum

/-- `TickerPosition.cost_basis_per_share_native` (lines 83-88). -/
def TickerPosition.costBasisPerShareNative (p : TickerPosition) : ℚ :=
  if p.shares = 0 then 0 else p.costBasisNative / p.shares

/-- `TickerPosition.total_investment_sgd` (lines 90-92): note that the source
sums over `open_lots` only. -/
def TickerPosition.totalInvestmentSgd (p : TickerPosition) : ℚ :=
  (p.openLots.map Lot.totalCostSgd).sum

/-- `TickerPosition.current_value_sgd` (lines 94-96). -/
def TickerPosition.currentValueSgd (p : TickerPosition) : ℚ :=
  p.shares * p.livePrice * p.liveFxRate

/-- `TickerPosition.realized_pnl_from_trades_sgd` (lines 98-100). -/
def TickerPosition.realizedPnlFromTradesSgd (p : TickerPosition) : ℚ :=
  (p.closedLots.map ClosedLot.realizedPnlSgd).sum

/-- `TickerPosition.unrealized_pnl_sgd` (lines 106-110): zero when no shares
are held, otherwise current value minus `total_investment_sgd`. -/
def TickerPosition.unrealizedPnlSgd (p : TickerPosition) : ℚ :=
  if p.shares = 0 then 0 else p.currentValueSgd - p.totalInvestmentSgd

/-- The float-drift epsilon `1e-9` of `compute_position`. -/
def eps : ℚ := 1 / 1000000000

/-- The `while remaining > 1e-9 and position.open_lots:` loop of
`compute_position` (lines 152-184).  Walks the FIFO queue from the front;
a lot with `quantity ≤ remaining + 1e-9` is closed whole, otherwise the
front lot is shrunk by `remaining` and the loop stops.  Returns the new
open-lot queue and the extended closed-lot list. -/
def sellLoop (sellDate : Nat) (sellPrice sellFx : ℚ) :
    ℚ → List Lot → List ClosedLot → List Lot × List ClosedLot
  | _, [], closed => ([], closed)
  | remaining, oldest :: rest, closed =>
    if remaining ≤ eps then (oldest :: rest, closed)
    else if oldest.quantity ≤ remaining + eps then
      sellLoop sellDate sellPrice sellFx (remaining - oldest.quantity) rest
        (closed ++ [⟨oldest.date, sellDate, oldest.quantity, oldest.priceNative,
          sellPrice, oldest.fxRateToSgd, sellFx⟩])
    else
      (⟨oldest.date, oldest.quantity - remaining, oldest.priceNative,
          oldest.fxRateToSgd⟩ :: rest,
       closed ++ [⟨oldest.date, sellDate, remaining, oldest.priceNative,
          sellPrice, oldest.fxRateToSgd, sellFx⟩])

/-- One iteration of the `for txn in transactions:` loop of
`compute_position` (lines 132-184): a BUY appends a new lot to the queue,
a SELL runs the FIFO `sellLoop`. -/
def processTxn (p : TickerPosition) (t : Txn) : TickerPosition :=
  match t.side with
  | Side.buy =>
      { p with openLots := p.openLots ++ [⟨t.date, t.quantity, t.price, t.fxRate⟩] }
  | Side.sell =>
      let res := sellLoop t.date t.price t.fxRate t.quantity p.openLots p.closedLots
      { p with openLots := res.1, closedLots := res.2 }

/-- `compute_position` (lines 121-186): replay a date-ascending transaction
list into a `TickerPosition`, starting from the empty position. -/
def computePosition (txns : List Txn) : TickerPosition :=
  txns.foldl processTxn { openLots := [], closedLots := [] }

/-- Attachment of live data by `compute_portfolio` (lines 236-241):
`position.live_price = ...; position.live_fx_rate = ...`. -/
def withLive (p : TickerPosition) (price fx : ℚ) : TickerPosition :=
  { p with livePrice := price, liveFxRate := fx }

/-- Cumulative native cost of every BUY in a transaction list — the spec's
`total_investment_native` ("cumulative cost of every BUY ever made").  The
engine keeps no such running field; this is the reference quantity the
invariant claims compare against. -/
def totalBuyCostNative (txns : List Txn) : ℚ :=
  ((txns.filter (fun t => t.side == Side.buy)).map (fun t => t.quantity * t.price)).sum

/-- Native cost of a list of open lots; the sum inside
`cost_basis_per_share_native` (portfolio_engine.py line 87). -/
def lotsCostNative (ls : List Lot) : ℚ :=
  (ls.map (fun l => l.quantity * l.priceNative)).sum

/-- The share count of a list of open lots (portfolio_engine.py line 77). -/
def lotsShares (ls : List Lot) : ℚ :=
  (ls.map (fun l => l.quantity)).sum

/-- `_fetch_fx_rate_yfinance` (fx_service.py lines 90-112), applied to the
yfinance history frame obtained for the window around `date`, given as a
`(date, Close)` list in the frame's ascending index order.  An empty frame
yields `None`; otherwise `before = hist[hist.index <= target]` and the result
is `before["Close"].iloc[-1]` when `before` is nonempty, else
`hist["Close"].iloc[0]` — the first (future-dated) row of the window. -/
def fetchFxRateYfinance (target : Nat) (hist : List (Nat × ℚ)) : Option ℚ :=
  match hist with
  | [] => none
  | h :: t =>
    match ((h :: t).filter (fun p => decide (p.1 ≤ target))).getLast? with
    | some p => some p.2
    | none => some h.2

/-- The fields of a transaction row read by `get_effective_fx_rate`
(fx_service.py lines 78-87): `fx_rate_override`, `fx_rate_to_sgd` (both
nullable REAL columns), `currency` (nullable in the dict, defaulted to
`"USD"`), and `date`. -/
structure FxTxn where
  date : Nat
  currency : Option String
  fxRateOverride : Option ℚ
  fxRateToSgd : Option ℚ
deriving DecidableEq, Repr

/-- The `else` tail of `get_effective_fx_rate`: the stored
`fx_rate_to_sgd` when it is truthy and positive, else
`get_fx_rate(conn, currency, BASE_CURRENCY, date)` — the resolver is passed
as an oracle `resolver from to date`. -/
def storedOrResolved (resolver : String → String → Nat → ℚ) (t : FxTxn) : ℚ :=
  match t.fxRateToSgd with
  | some w => if 0 < w then w else resolver (t.currency.getD "USD") "SGD" t.date
  | none => resolver (t.currency.getD "USD") "SGD" t.date

/-- `get_effective_fx_rate` (fx_service.py lines 78-87).  Python's
`if txn.get("fx_rate_override") and txn["fx_rate_override"] > 0` is truthy
exactly when the value is present and positive (`None` and `0.0` are falsy),
and likewise for `fx_rate_to_sgd`. -/
def getEffectiveFxRate (resolver : String → String → Nat → ℚ) (t : FxTxn) : ℚ :=
  match t.fxRateOverride with
  | some v => if 0 < v then v else storedOrResolved resolver t
  | none => storedOrResolved resolver t

/-- Signed quantity of a transaction in the dividend replay
(dividend_service.py lines 55-58): `+quantity` for BUY, `-quantity` for
SELL. -/
def signedQty (t : Txn) : ℚ :=
  match t.side with
  | Side.buy => t.quantity
  | Side.sell => -t.quantity

/-- Transaction order used by `sorted(transactions, key=lambda t: t["date"])`
(dividend_service.py line 45). -/
def txnDateLe (a b : Txn) : Prop := a.date ≤ b.date

instance : DecidableRel txnDateLe := fun a b => by unfold txnDateLe; infer_instance

instance : IsTotal Txn txnDateLe := ⟨by intro a b; unfold txnDateLe; omega⟩

instance : IsTrans Txn txnDateLe := ⟨by intro a b c; unfold txnDateLe; omega⟩

/-- `sorted(transactions, key=lambda t: t["date"])` (dividend_service.py
line 45); Python's `sorted` is a stable sort, modelled by
`List.insertionSort`. -/
def sortTxnsByDate (txns : List Txn) : List Txn :=
  List.insertionSort txnDateLe txns

/-- The per-ex-date replay loop of `calculate_dividends_received`
(dividend_service.py lines 51-58): walk the date-sorted transactions,
stopping (`break`) at the first transaction dated after the ex-date, adding
BUY quantities and subtracting SELL quantities. -/
def replayShares (exDate : Nat) : List Txn → ℚ
  | [] => 0
  | t :: rest => if exDate < t.date then 0 else signedQty t + replayShares exDate rest

/-- One dividend record (dividend_service.py lines 71-83).  The display-only
`currency` string and the `year` (a substring of the ex-date string) are
omitted. -/
structure DividendRecord where
  exDate : Nat
  divPerShare : ℚ
  sharesHeld : ℚ
  grossNative : ℚ
  whtRate : ℚ
  taxNative : ℚ
  netNative : ℚ
  fxRate : ℚ
  netSgd : ℚ
deriving DecidableEq, Repr

/-- The body of the `for ex_date, div_per_share in dividend_history.items()`
loop (dividend_service.py lines 47-83), applied to the pre-sorted
transaction list: skip when the replayed `shares_held` is ≤ 0, otherwise
build the record with gross, withholding tax, net, and ex-date FX
conversion. -/
def divEntryFromSorted (whtRate : ℚ) (fx : Nat → ℚ) (sortedTxns : List Txn)
    (e : Nat × ℚ) : Option DividendRecord :=
  let sharesHeld := replayShares e.1 sortedTxns
  if sharesHeld ≤ 0 then none
  else
    let grossNative := sharesHeld * e.2
    let taxNative := grossNative * whtRate
    let netNative := grossNative - taxNative
    let fxRate := fx e.1
    some ⟨e.1, e.2, sharesHeld, grossNative, whtRate, taxNative, netNative,
      fxRate, netNative * fxRate⟩

/-- `calculate_dividends_received` (dividend_service.py lines 24-85):
sort the transactions by date once, produce one optional record per
dividend-history entry, and return the accumulated `total_net_div_sgd`
together with the record list.  The withholding-tax rate (a fixed table
lookup on the country) and the historical FX resolver are passed as
parameters. -/
def calculateDividendsReceived (whtRate : ℚ) (fx : Nat → ℚ) (txns : List Txn)
    (divHistory : List (Nat × ℚ)) : ℚ × List DividendRecord :=
  let records := divHistory.filterMap (divEntryFromSorted whtRate fx (sortTxnsByDate txns))
  ((records.map DividendRecord.netSgd).sum, records)

/-- Written from the spec's words, for comparison with the replay in the
source: "`shares_held` = sum over exactly the transactions dated on or
before the ex-date of (+quantity if BUY, −quantity if SELL)". -/
def sharesHeldOnOrBefore (txns : List Txn) (exDate : Nat) : ℚ :=
  ((txns.filter (fun t => decide (t.date ≤ exDate))).map signedQty).sum

/-- Written from the spec's words: the record for one dividend-history entry,
using `sharesHeldOnOrBefore` directly on the unsorted transaction list. -/
def divEntrySpec (whtRate : ℚ) (fx : Nat → ℚ) (txns : List Txn)
    (e : Nat × ℚ) : Option DividendRecord :=
  let sharesHeld := sharesHeldOnOrBefore txns e.1
  if sharesHeld ≤ 0 then none
  else
    let grossNative := sharesHeld * e.2
    let taxNative := grossNative * whtRate
    let netNative := grossNative - taxNative
    let fxRate := fx e.1
    some ⟨e.1, e.2, sharesHeld, grossNative, whtRate, taxNative, netNative,
      fxRate, netNative * fxRate⟩

/-- The three columns of a `transactions` row that determine the order in
which `compute_portfolio` feeds rows to `compute_position`: the
autoincrement primary key `id`, and the `ticker` and `date` sort keys
(both TEXT in the schema; modelled as ordinals since only their total order
matters). -/
structure Row where
  id : Nat
  ticker : Nat
  date : Nat
deriving DecidableEq, Repr

/-- The row order of `get_transactions` (transaction.py line 102):
`ORDER BY date DESC, id DESC` — `a` precedes `b` when `a.date > b.date`, or
the dates tie and `a.id ≥ b.id`. -/
def sqlOrderLe (a b : Row) : Prop :=
  b.date < a.date ∨ (a.date = b.date ∧ b.id ≤ a.id)

instance : DecidableRel sqlOrderLe := fun a b => by unfold sqlOrderLe; infer_instance

instance : IsTotal Row sqlOrderLe := ⟨by intro a b; unfold sqlOrderLe; omega⟩

instance : IsTrans Row sqlOrderLe := ⟨by intro a b c; unfold sqlOrderLe; omega⟩

/-- The key order of `all_txns.sort(key=lambda t: (t["ticker"], t["date"]))`
(portfolio_engine.py line 201): lexicographic on (ticker, date). -/
def pyKeyLe (a b : Row) : Prop :=
  a.ticker < b.ticker ∨ (a.ticker = b.ticker ∧ a.date ≤ b.date)

instance : DecidableRel pyKeyLe := fun a b => by unfold pyKeyLe; infer_instance

instance : IsTotal Row pyKeyLe := ⟨by intro a b; unfold pyKeyLe; omega⟩

instance : IsTrans Row pyKeyLe := ⟨by intro a b c; unfold pyKeyLe; omega⟩

/-- The list returned by `get_transactions` (transaction.py lines 67-104,
no filters): the stored rows in `ORDER BY date DESC, id DESC` order.  SQLite
returns the unique such order when ids are distinct; it is modelled with a
sort by `sqlOrderLe`. -/
def getTransactionsOrder (rows : List Row) : List Row :=
  List.insertionSort sqlOrderLe rows

/-- The order after `all_txns.sort(key=lambda t: (t["ticker"], t["date"]))`
in `compute_portfolio` (portfolio_engine.py line 201): Python's `list.sort`
is a stable sort applied to the list `get_transactions` returned, modelled
by the stable `List.insertionSort`. -/
def assembleOrder (rows : List Row) : List Row :=
  List.insertionSort pyKeyLe (getTransactionsOrder rows)

/-- The group that `itertools.groupby` (portfolio_engine.py line 206) hands
to `compute_position` for ticker `t`: since `assembleOrder` is sorted with
ticker as the major key, each ticker's rows are one contiguous run, equal to
the sublist of rows with that ticker. -/
def tickerGroup (rows : List Row) (t : Nat) : List Row :=
  (assembleOrder rows).filter (fun r => r.ticker == t)

/-- The per-ticker order the claim asserts: ascending date, same-date ties by
ascending row id. -/
def claimRowOrder (a b : Row) : Prop :=
  a.date < b.date ∨ (a.date = b.date ∧ a.id ≤ b.id)

instance : DecidableRel claimRowOrder := fun a b => by unfold claimRowOrder; infer_instance

/-- The per-ticker order the pipeline actually produces: ascending date,
same-date ties by descending row id. -/
def actualRowOrder (a b : Row) : Prop :=
  a.date < b.date ∨ (a.date = b.date ∧ b.id < a.id)

/-- An optional rate column that Python's
`txn.get(k) and txn[k] > 0` treats as absent: either NULL or a value ≤ 0. -/
def optionInactive (o : Option ℚ) : Prop := ∀ v, o = some v → v ≤ 0

/-- The transaction list of the average-cost example: BUY 10@100, BUY 10@200,
SELL 15@250, all FX rates 1. -/
def avgCostExample : List Txn :=
  [⟨0, Side.buy, 100, 10, 1⟩, ⟨1, Side.buy, 200, 10, 1⟩, ⟨2, Side.sell, 250, 15, 1⟩]

/-- A replay with one BUY followed by a SELL closing it: BUY 1@100 then
SELL 1@100, FX rate 1 throughout. -/
def buyThenSell : List Txn :=
  [⟨0, Side.buy, 100, 1, 1⟩, ⟨1, Side.sell, 100, 1, 1⟩]

/-- The single-ticker end-to-end scenario: BUY 10 shares at 100 USD with
transaction-date FX 1.35, live price 150 USD, live FX 1.34. -/
def endToEndPosition : TickerPosition :=
  withLive (computePosition [⟨0, Side.buy, 100, 10, 27/20⟩]) 150 (67/50)

/-- A replay whose buy-date and sell-date FX rates differ: BUY 1@100 at FX 1,
then SELL 1@200 at FX 2. -/
def fxSplitTxns : List Txn :=
  [⟨0, Side.buy, 100, 1, 1⟩, ⟨1, Side.sell, 200, 1, 2⟩]

/-- A position holding no shares (empty FIFO queue) with one past closed
lot. -/
def emptyQueuePosition : TickerPosition :=
  { openLots := [], closedLots := [⟨0, 1, 1, 50, 60, 1, 1⟩] }

/-- A SELL of 5 shares at price 100, FX 1. -/
def sellFiveTxn : Txn := ⟨5, Side.sell, 100, 5, 1⟩

/-- Two rows of one ticker sharing a date, with ids 1 and 2. -/
def tiedRows : List Row := [⟨1, 7, 3⟩, ⟨2, 7, 3⟩]

/-- A transaction row whose `fx_rate_override` is present but negative while
a stored `fx_rate_to_sgd` of 2 is present. -/
def negOverrideTxn : FxTxn :=
  { date := 7, currency := some "USD", fxRateOverride := some (-2), fxRateToSgd := some 2 }

/-- A transaction row with a positive override 3 and a stored rate 2. -/
def posOverrideTxn : FxTxn :=
  { date := 7, currency := some "USD", fxRateOverride := some 3, fxRateToSgd := some 2 }

/-- C1.  The claim states `compute_position` applies the average-cost method,
and that BUY 10@100, BUY 10@200, SELL 15@250 (all FX 1) yields realized P&L
1500, remaining shares 5, remaining cost basis 750.  The source engine is
FIFO: the SELL closes the whole first lot (10@100) and 5 shares of the
second (5@200), so realized P&L is 1500 + 250 = 1750, the remaining cost
basis is 5 × 200 = 1000, and only the share count 5 matches the claim. -/
theorem c1_code_eval :
    (computePosition avgCostExample).closedLots =
      [⟨0, 2, 10, 100, 250, 1, 1⟩, ⟨1, 2, 5, 200, 250, 1, 1⟩] ∧
    (computePosition avgCostExample).realizedPnlFromTradesSgd = 1750 ∧
    (computePosition avgCostExample).shares = 5 ∧
    (computePosition avgCostExample).costBasisNative = 1000 ∧
    (1750:ℚ) ≠ 1500 ∧ (1000:ℚ) ≠ 750 := by
  refine ⟨?_, ?_, ?_, ?_, by norm_num, by norm_num⟩ <;>
    norm_num [computePosition, processTxn, sellLoop, eps, avgCostExample,
      TickerPosition.realizedPnlFromTradesSgd, ClosedLot.realizedPnlSgd,
      ClosedLot.proceedsSgd, ClosedLot.costSgd, TickerPosition.shares,
      TickerPosition.costBasisNative]

/-- C2.  The claim states a SELL leaves `total_investment_sgd` unchanged and
the figure is monotonically non-decreasing across a replay.  In the source
the property sums `open_lots` only, so the SELL that closes the single open
lot drops it from 100 to 0. -/
theorem c2_code_eval :
    (computePosition [⟨0, Side.buy, 100, 1, 1⟩]).totalInvestmentSgd = 100 ∧
    (computePosition buyThenSell).totalInvestmentSgd = 0 := by
  constructor <;>
    norm_num [computePosition, processTxn, sellLoop, eps, buyThenSell,
      TickerPosition.totalInvestmentSgd, Lot.totalCostSgd, Lot.costPerShareSgd]

/-- C3.  The claim states the end-to-end scenario yields
`total_investment_sgd = 1350`, `current_value_sgd = 2010`, and
`unrealized_pnl_sgd = 2010 − 10×100×1.34 = 670` (cost converted at the live
FX rate).  The source computes `unrealized_pnl_sgd = current_value_sgd −
total_investment_sgd`, converting the cost at the transaction-date FX rate,
which gives 2010 − 1350 = 660, not 670. -/
theorem c3_code_eval :
    endToEndPosition.totalInvestmentSgd = 1350 ∧
    endToEndPosition.currentValueSgd = 2010 ∧
    endToEndPosition.unrealizedPnlSgd = 660 ∧
    endToEndPosition.unrealizedPnlSgd ≠ 2010 - 10 * 100 * (67/50) := by
  refine ⟨?_, ?_, ?_, ?_⟩ <;>
    norm_num [endToEndPosition, withLive, computePosition, processTxn,
      TickerPosition.totalInvestmentSgd, TickerPosition.currentValueSgd,
      TickerPosition.unrealizedPnlSgd, TickerPosition.shares,
      Lot.totalCostSgd, Lot.costPerShareSgd]

/-- C4.  The claim states the realized trading P&L in base currency equals
the native realized P&L converted at today's live FX rate.  In the source
each closed lot's proceeds are converted at the sale-date effective FX rate
and its cost at the purchase-date effective FX rate; the live FX rate does
not enter at all.  For BUY 1@100 (FX 1) then SELL 1@200 (FX 2) the code
reports 1×200×2 − 1×100×1 = 300 whatever the live FX rate is, while the
claim with live FX 5 gives (200−100)×1×5 = 500. -/
theorem c4_code_eval :
    (∀ liveFx : ℚ,
      (withLive (computePosition fxSplitTxns) 0 liveFx).realizedPnlFromTradesSgd = 300) ∧
    ((200:ℚ) - 100) * 1 * 5 = 500 ∧ (300:ℚ) ≠ 500 := by
  refine ⟨fun liveFx => ?_, by norm_num, by norm_num⟩
  norm_num [withLive, computePosition, processTxn, sellLoop, eps, fxSplitTxns,
    TickerPosition.realizedPnlFromTradesSgd, ClosedLot.realizedPnlSgd,
    ClosedLot.proceedsSgd, ClosedLot.costSgd]

/-- The FIFO sell loop keeps every remaining lot's quantity and price
positive and never increases the open-lot native cost. -/
theorem sellLoop_lots_invariant (d : Nat) (sp fx : ℚ) (lots : List Lot) :
    ∀ (rem : ℚ) (closed : List ClosedLot),
      (∀ l ∈ lots, 0 < l.quantity ∧ 0 < l.priceNative) →
      (∀ l ∈ (sellLoop d sp fx rem lots closed).1, 0 < l.quantity ∧ 0 < l.priceNative) ∧
      lotsCostNative (sellLoop d sp fx rem lots closed).1 ≤ lotsCostNative lots := by
  have heps : (0:ℚ) < eps := by norm_num [eps]
  induction lots with
  | nil =>
    intro rem closed h
    simp [sellLoop]
  | cons oldest rest ih =>
    intro rem closed h
    have hoq := (h oldest (List.mem_cons_self _ _)).1
    have hop := (h oldest (List.mem_cons_self _ _)).2
    have hrest : ∀ l ∈ rest, 0 < l.quantity ∧ 0 < l.priceNative :=
      fun l hl => h l (List.mem_cons_of_mem _ hl)
    rw [sellLoop]
    split_ifs with h1 h2
    · exact ⟨h, le_refl _⟩
    · have hmain := ih (rem - oldest.quantity)
        (closed ++ [⟨oldest.date, d, oldest.quantity, oldest.priceNative, sp,
          oldest.fxRateToSgd, fx⟩]) hrest
      refine ⟨hmain.1, le_trans hmain.2 ?_⟩
      have hpos : 0 < oldest.quantity * oldest.priceNative := mul_pos hoq hop
      simp only [lotsCostNative, List.map_cons, List.sum_cons]
      linarith
    · constructor
      · intro l hl
        rcases List.mem_cons.mp hl with hl | hl
        · subst hl
          refine ⟨?_, hop⟩
          show 0 < oldest.quantity - rem
          have h2' : rem + eps < oldest.quantity := not_le.mp h2
          linarith
        · exact hrest l hl
      · simp only [lotsCostNative, List.map_cons, List.sum_cons]
        have hrem : 0 < rem := lt_trans heps (not_le.mp h1)
        have hprod : 0 < rem * oldest.priceNative := mul_pos hrem hop
        have hexp : (oldest.quantity - rem) * oldest.priceNative =
            oldest.quantity * oldest.priceNative - rem * oldest.priceNative := by ring
        simp only [hexp]
        linarith

/-- Replaying transactions with positive quantities and prices from any
well-formed position keeps lot quantities and prices positive, and grows the
open-lot cost by at most the cost of the BUYs replayed. -/
theorem replay_lots_invariant (txns : List Txn) :
    ∀ (p : TickerPosition),
      (∀ t ∈ txns, 0 < t.quantity ∧ 0 < t.price) →
      (∀ l ∈ p.openLots, 0 < l.quantity ∧ 0 < l.priceNative) →
      (∀ l ∈ (txns.foldl processTxn p).openLots, 0 < l.quantity ∧ 0 < l.priceNative) ∧
      lotsCostNative (txns.foldl processTxn p).openLots ≤
        lotsCostNative p.openLots + totalBuyCostNative txns := by
  induction txns with
  | nil =>
    intro p ht hp
    refine ⟨hp, ?_⟩
    simp [totalBuyCostNative]
  | cons t rest ih =>
    intro p ht hp
    have htq := (ht t (List.mem_cons_self _ _)).1
    have htp := (ht t (List.mem_cons_self _ _)).2
    have hrest : ∀ u ∈ rest, 0 < u.quantity ∧ 0 < u.price :=
      fun u hu => ht u (List.mem_cons_of_mem _ hu)
    rw [List.foldl_cons]
    cases hside : t.side
    case buy =>
      have hstep : processTxn p t =
          { p with openLots := p.openLots ++ [⟨t.date, t.quantity, t.price, t.fxRate⟩] } := by
        simp [processTxn, hside]
      have hp' : ∀ l ∈ p.openLots ++ [(⟨t.date, t.quantity, t.price, t.fxRate⟩ : Lot)],
          0 < l.quantity ∧ 0 < l.priceNative := by
        intro l hl
        rcases List.mem_append.mp hl with hl | hl
        · exact hp l hl
        · rcases List.mem_singleton.mp hl with rfl
          exact ⟨htq, htp⟩
      have hmain := ih (processTxn p t) hrest (by rw [hstep]; exact hp')
      refine ⟨hmain.1, le_trans hmain.2 ?_⟩
      have hcost : lotsCostNative (processTxn p t).openLots =
          lotsCostNative p.openLots + t.quantity * t.price := by
        rw [hstep]
        simp [lotsCostNative]
      have hbuy : totalBuyCostNative (t :: rest) =
          t.quantity * t.price + totalBuyCostNative rest := by
        simp [totalBuyCostNative, List.filter_cons, hside]
      rw [hcost, hbuy]
      linarith
    case sell =>
      have hstep : processTxn p t =
          { p with
            openLots := (sellLoop t.date t.price t.fxRate t.quantity p.openLots p.closedLots).1,
            closedLots := (sellLoop t.date t.price t.fxRate t.quantity p.openLots p.closedLots).2 } := by
        simp [processTxn, hside]
      have hsell := sellLoop_lots_invariant t.date t.price t.fxRate p.openLots
        t.quantity p.closedLots hp
      have hmain := ih (processTxn p t) hrest (by rw [hstep]; exact hsell.1)
      refine ⟨hmain.1, le_trans hmain.2 ?_⟩
      have hcost : lotsCostNative (processTxn p t).openLots ≤ lotsCostNative p.openLots := by
        rw [hstep]
        exact hsell.2
      have hbuy : totalBuyCostNative (t :: rest) = totalBuyCostNative rest := by
        simp [totalBuyCostNative, List.filter_cons, hside]
      rw [hbuy]
      linarith

/-- C5.  After replaying any transaction list with positive prices and
quantities, the engine's position satisfies the invariants: the remaining
open cost basis is between 0 and the cumulative cost of every BUY, and the
share count is non-negative. -/
theorem c5_invariants (txns : List Txn)
    (h : ∀ t ∈ txns, 0 < t.quantity ∧ 0 < t.price) :
    0 ≤ (computePosition txns).costBasisNative ∧
    (computePosition txns).costBasisNative ≤ totalBuyCostNative txns ∧
    0 ≤ (computePosition txns).shares := by
  have hrep := replay_lots_invariant txns { openLots := [], closedLots := [] } h (by simp)
  refine ⟨?_, ?_, ?_⟩
  · apply List.sum_nonneg
    intro x hx
    rcases List.mem_map.mp hx with ⟨l, hl, rfl⟩
    exact le_of_lt (mul_pos (hrep.1 l hl).1 (hrep.1 l hl).2)
  · have h0 : lotsCostNative ({ openLots := [], closedLots := [] } : TickerPosition).openLots = 0 := by
      simp [lotsCostNative]
    have := hrep.2
    rw [h0] at this
    simpa [computePosition, TickerPosition.costBasisNative, lotsCostNative] using this
  · apply List.sum_nonneg
    intro x hx
    rcases List.mem_map.mp hx with ⟨l, hl, rfl⟩
    exact le_of_lt (hrep.1 l hl).1

/-- Witness for C5 at the concrete three-transaction example. -/
theorem c5_invariants_witness :
    0 ≤ (computePosition avgCostExample).costBasisNative ∧
    (computePosition avgCostExample).costBasisNative ≤ totalBuyCostNative avgCostExample ∧
    0 ≤ (computePosition avgCostExample).shares :=
  c5_invariants avgCostExample (by norm_num [avgCostExample])

/-- A list of lots with positive quantities and total share count 0 is
empty. -/
theorem lots_eq_nil_of_shares_zero {ls : List Lot}
    (hq : ∀ l ∈ ls, 0 < l.quantity) (hs : (ls.map (fun l => l.quantity)).sum = 0) :
    ls = [] := by
  cases ls with
  | nil => rfl
  | cons l rest =>
    exfalso
    have h1 : 0 < l.quantity := hq l (List.mem_cons_self _ _)
    have h2 : 0 ≤ (rest.map (fun l => l.quantity)).sum := by
      apply List.sum_nonneg
      intro x hx
      rcases List.mem_map.mp hx with ⟨u, hu, rfl⟩
      exact le_of_lt (hq u (List.mem_cons_of_mem _ hu))
    simp only [List.map_cons, List.sum_cons] at hs
    linarith

/-- C8.  A SELL processed while no shares are held (positive-quantity lots,
share count 0, i.e. an empty FIFO queue) is a no-op: the position is
unchanged, shares stay 0, and the realized P&L is untouched; no negative
share count is produced. -/
theorem c8_sell_noop (p : TickerPosition) (t : Txn)
    (hq : ∀ l ∈ p.openLots, 0 < l.quantity) (hside : t.side = Side.sell)
    (hshares : p.shares = 0) :
    processTxn p t = p ∧ (processTxn p t).shares = 0 ∧
      (processTxn p t).realizedPnlFromTradesSgd = p.realizedPnlFromTradesSgd := by
  have hnil : p.openLots = [] := lots_eq_nil_of_shares_zero hq hshares
  have heq : processTxn p t = p := by
    simp only [processTxn, hside]
    rw [hnil]
    simp only [sellLoop]
    rw [← hnil]
  refine ⟨heq, ?_, ?_⟩
  · rw [heq]
    exact hshares
  · rw [heq]

/-- Witness for C8: a SELL of 5 against an empty queue with one prior closed
lot. -/
theorem c8_sell_noop_witness :
    processTxn emptyQueuePosition sellFiveTxn = emptyQueuePosition ∧
    (processTxn emptyQueuePosition sellFiveTxn).shares = 0 ∧
    (processTxn emptyQueuePosition sellFiveTxn).realizedPnlFromTradesSgd =
      emptyQueuePosition.realizedPnlFromTradesSgd :=
  c8_sell_noop emptyQueuePosition sellFiveTxn (by simp [emptyQueuePosition]) rfl
    (by simp [emptyQueuePosition, TickerPosition.shares])

/-- In a list strictly ascending in its first component, every element's
date is at most the date of the last element. -/
theorem pairwise_le_getLast :
    ∀ {l : List (Nat × ℚ)}, l.Pairwise (fun a b => a.1 < b.1) →
      ∀ {q : Nat × ℚ}, l.getLast? = some q → ∀ r ∈ l, r.1 ≤ q.1 := by
  intro l
  induction l with
  | nil => intro _ q hq; simp at hq
  | cons a t ih =>
    intro hl q hq r hr
    cases t with
    | nil =>
      simp at hq
      subst hq
      rcases List.mem_singleton.mp hr with rfl
      exact le_refl _
    | cons b t2 =>
      rw [List.getLast?_cons_cons] at hq
      have hpair := List.pairwise_cons.mp hl
      rcases List.mem_cons.mp hr with rfl | hr2
      · have hqmem : q ∈ b :: t2 := List.mem_of_mem_getLast? (by simp [hq])
        exact le_of_lt (hpair.1 q hqmem)
      · exact ih hpair.2 hq r hr2

/-- C6 counterexample.  The claim states a rate dated strictly after the
requested date is never returned.  With a fetched window whose only row is
dated 11 and a requested date of 10, `_fetch_fx_rate_yfinance` returns that
future-dated rate via its `hist["Close"].iloc[0]` fallback. -/
theorem c6_counterexample :
    fetchFxRateYfinance 10 [(11, 2)] = some 2 ∧
      ∀ r ∈ [((11:Nat), (2:ℚ))], 10 < r.1 := by
  constructor
  · rfl
  · intro r hr
    rcases List.mem_singleton.mp hr with rfl
    norm_num

/-- C6 amended.  When the fetched window (ascending, distinct dates, as a
yfinance index is) contains at least one row dated on or before the
requested date, `_fetch_fx_rate_yfinance` returns the closest such rate:
some row on or before the date whose date dominates every other on-or-before
row.  (Only when no such row exists does the code fall back to the earliest,
future-dated, row.) -/
theorem c6_amended (target : Nat) (hist : List (Nat × ℚ))
    (hsorted : hist.Pairwise (fun a b => a.1 < b.1))
    (hsome : ∃ p ∈ hist, p.1 ≤ target) :
    ∃ q ∈ hist, q.1 ≤ target ∧ fetchFxRateYfinance target hist = some q.2 ∧
      ∀ r ∈ hist, r.1 ≤ target → r.1 ≤ q.1 := by
  obtain ⟨p, hp, hple⟩ := hsome
  cases hist with
  | nil => simp at hp
  | cons h t =>
    have hpb : p ∈ (h :: t).filter (fun x => decide (x.1 ≤ target)) :=
      List.mem_filter.mpr ⟨hp, by simpa using hple⟩
    have hne : (h :: t).filter (fun x => decide (x.1 ≤ target)) ≠ [] := by
      intro hc
      rw [hc] at hpb
      simp at hpb
    obtain ⟨q, hq⟩ :
        ∃ q, ((h :: t).filter (fun x => decide (x.1 ≤ target))).getLast? = some q := by
      cases hl : ((h :: t).filter (fun x => decide (x.1 ≤ target))).getLast? with
      | none => exact absurd (List.getLast?_eq_none_iff.mp hl) hne
      | some q => exact ⟨q, rfl⟩
    have hqmem : q ∈ (h :: t).filter (fun x => decide (x.1 ≤ target)) :=
      List.mem_of_mem_getLast? (by simp [hq])
    have hqhist : q ∈ h :: t := (List.mem_filter.mp hqmem).1
    have hqle : q.1 ≤ target := by simpa using (List.mem_filter.mp hqmem).2
    refine ⟨q, hqhist, hqle, ?_, ?_⟩
    · rw [fetchFxRateYfinance, hq]
    · intro r hr hrle
      have hrb : r ∈ (h :: t).filter (fun x => decide (x.1 ≤ target)) :=
        List.mem_filter.mpr ⟨hr, by simpa using hrle⟩
      exact pairwise_le_getLast (hsorted.filter _) hq r hrb

/-- Witness for C6 amended: requested date 10 against rows dated 5 and 11;
the rate of the row dated 5 is returned. -/
theorem c6_amended_witness :
    ∃ q ∈ [((5:Nat), (3:ℚ)), (11, 2)], q.1 ≤ 10 ∧
      fetchFxRateYfinance 10 [(5, 3), (11, 2)] = some q.2 ∧
      ∀ r ∈ [((5:Nat), (3:ℚ)), (11, 2)], r.1 ≤ 10 → r.1 ≤ q.1 :=
  c6_amended 10 [(5, 3), (11, 2)] (by simp) ⟨(5, 3), by simp, by norm_num⟩

/-- The break-style replay of the dividend loop over a date-sorted list
computes the signed sum over exactly the transactions dated on or before the
ex-date. -/
theorem replayShares_eq_filter_sum (e : Nat) :
    ∀ (l : List Txn), l.Pairwise txnDateLe →
      replayShares e l = ((l.filter (fun t => decide (t.date ≤ e))).map signedQty).sum := by
  intro l
  induction l with
  | nil => intro _; simp [replayShares]
  | cons t rest ih =>
    intro hs
    rw [replayShares]
    by_cases h : e < t.date
    · rw [if_pos h]
      have hnil : (t :: rest).filter (fun u => decide (u.date ≤ e)) = [] := by
        rw [List.filter_eq_nil_iff]
        intro u hu
        rcases List.mem_cons.mp hu with rfl | hu2
        · simp
          omega
        · have hle : txnDateLe t u := (List.pairwise_cons.mp hs).1 u hu2
          unfold txnDateLe at hle
          simp
          omega
      rw [hnil]
      simp
    · rw [if_neg h]
      rw [List.filter_cons, if_pos (by simp; omega)]
      rw [List.map_cons, List.sum_cons, ih (List.pairwise_cons.mp hs).2]

/-- Sorting first and replaying with the break is the same as filtering the
original transaction list by date. -/
theorem replayShares_sorted (txns : List Txn) (e : Nat) :
    replayShares e (sortTxnsByDate txns) = sharesHeldOnOrBefore txns e := by
  have hsorted : (sortTxnsByDate txns).Pairwise txnDateLe :=
    List.sorted_insertionSort txnDateLe txns
  rw [replayShares_eq_filter_sum e _ hsorted]
  have hperm : List.Perm (sortTxnsByDate txns) txns := List.perm_insertionSort txnDateLe txns
  unfold sharesHeldOnOrBefore
  exact ((hperm.filter _).map signedQty).sum_eq

/-- C9.  `calculate_dividends_received` computes, per ex-date, `shares_held`
as the sum of BUY quantities minus SELL quantities over exactly the
transactions dated on or before that ex-date; an ex-date with
`shares_held ≤ 0` produces no record, and otherwise the record's gross
dividend is `shares_held × div_per_share` — equivalently, the source equals
the spec-worded `divEntrySpec` on every input.  In particular BUY 100 before
an ex-date of 1 per share gives a single record with `shares_held = 100` and
`gross_native = 100`. -/
theorem c9_dividend_replay :
    (∀ (wht : ℚ) (fx : Nat → ℚ) (txns : List Txn) (hist : List (Nat × ℚ)),
      calculateDividendsReceived wht fx txns hist =
        (((hist.filterMap (divEntrySpec wht fx txns)).map DividendRecord.netSgd).sum,
          hist.filterMap (divEntrySpec wht fx txns))) ∧
    ((calculateDividendsReceived (3/10) (fun _ => 1)
        [⟨0, Side.buy, 50, 100, 1⟩] [(5, 1)]).2.map DividendRecord.sharesHeld = [100] ∧
      (calculateDividendsReceived (3/10) (fun _ => 1)
        [⟨0, Side.buy, 50, 100, 1⟩] [(5, 1)]).2.map DividendRecord.grossNative = [100]) := by
  have hentry : ∀ (wht : ℚ) (fx : Nat → ℚ) (txns : List Txn),
      divEntryFromSorted wht fx (sortTxnsByDate txns) = divEntrySpec wht fx txns := by
    intro wht fx txns
    funext e
    unfold divEntryFromSorted divEntrySpec
    rw [replayShares_sorted]
  refine ⟨?_, ?_, ?_⟩
  · intro wht fx txns hist
    unfold calculateDividendsReceived
    rw [hentry]
  · norm_num [calculateDividendsReceived, divEntryFromSorted, sortTxnsByDate,
      List.insertionSort, List.orderedInsert, replayShares, signedQty,
      List.filterMap_cons, List.filterMap_nil]
  · norm_num [calculateDividendsReceived, divEntryFromSorted, sortTxnsByDate,
      List.insertionSort, List.orderedInsert, replayShares, signedQty,
      List.filterMap_cons, List.filterMap_nil]

/-- C10 counterexample.  The claim states a present per-transaction override
is always returned.  An override that is present but not positive (here −2)
is skipped by the `and txn["fx_rate_override"] > 0` guard, and the stored
rate 2 is returned instead. -/
theorem c10_counterexample :
    getEffectiveFxRate (fun _ _ _ => 1) negOverrideTxn = 2 ∧
    negOverrideTxn.fxRateOverride = some (-2) ∧ (2:ℚ) ≠ -2 := by
  refine ⟨?_, rfl, by norm_num⟩
  norm_num [getEffectiveFxRate, storedOrResolved, negOverrideTxn]

/-- C10 amended.  The effective FX rate precedence, with presence meaning
present and positive (Python truthiness plus the `> 0` guard): a positive
override is always returned; otherwise a positive stored per-transaction
rate is returned; otherwise the resolver's historical rate for the
transaction's currency, the base currency and the transaction date. -/
theorem c10_amended (resolver : String → String → Nat → ℚ) (t : FxTxn) :
    (∀ v, t.fxRateOverride = some v → 0 < v → getEffectiveFxRate resolver t = v) ∧
    (optionInactive t.fxRateOverride →
      ∀ w, t.fxRateToSgd = some w → 0 < w → getEffectiveFxRate resolver t = w) ∧
    (optionInactive t.fxRateOverride → optionInactive t.fxRateToSgd →
      getEffectiveFxRate resolver t = resolver (t.currency.getD "USD") "SGD" t.date) := by
  refine ⟨?_, ?_, ?_⟩
  · intro v hv hpos
    simp only [getEffectiveFxRate, hv]
    rw [if_pos hpos]
  · intro hover w hw hpos
    cases ho : t.fxRateOverride with
    | none =>
      simp only [getEffectiveFxRate, ho, storedOrResolved, hw]
      rw [if_pos hpos]
    | some v =>
      have hv : v ≤ 0 := hover v ho
      simp only [getEffectiveFxRate, ho, storedOrResolved, hw]
      rw [if_neg (not_lt.mpr hv), if_pos hpos]
  · intro hover hstored
    cases ho : t.fxRateOverride with
    | none =>
      cases hs : t.fxRateToSgd with
      | none => simp only [getEffectiveFxRate, ho, storedOrResolved, hs]
      | some w =>
        have hw : w ≤ 0 := hstored w hs
        simp only [getEffectiveFxRate, ho, storedOrResolved, hs]
        rw [if_neg (not_lt.mpr hw)]
    | some v =>
      have hv : v ≤ 0 := hover v ho
      cases hs : t.fxRateToSgd with
      | none =>
        simp only [getEffectiveFxRate, ho, storedOrResolved, hs]
        rw [if_neg (not_lt.mpr hv)]
      | some w =>
        have hw : w ≤ 0 := hstored w hs
        simp only [getEffectiveFxRate, ho, storedOrResolved, hs]
        rw [if_neg (not_lt.mpr hv), if_neg (not_lt.mpr hw)]

/-- Witness for C10 amended: a positive override 3 beats a stored rate 2. -/
theorem c10_amended_witness :
    getEffectiveFxRate (fun _ _ _ => 1) posOverrideTxn = 3 :=
  (c10_amended (fun _ _ _ => 1) posOverrideTxn).1 3 rfl (by norm_num)

/-- Two distinct members of a list occur in one order or the other. -/
theorem pair_sublist_or {α : Type} {a b : α} {l : List α}
    (ha : a ∈ l) (hb : b ∈ l) (hne : a ≠ b) :
    List.Sublist [a, b] l ∨ List.Sublist [b, a] l := by
  induction l with
  | nil => simp at ha
  | cons c t ih =>
    rcases List.mem_cons.mp ha with rfl | ha2
    · have hb2 : b ∈ t := by
        rcases List.mem_cons.mp hb with rfl | hb2
        · exact absurd rfl hne
        · exact hb2
      exact Or.inl ((List.singleton_sublist.mpr hb2).cons₂ a)
    · rcases List.mem_cons.mp hb with rfl | hb2
      · exact Or.inr ((List.singleton_sublist.mpr ha2).cons₂ b)
      · rcases ih ha2 hb2 with h | h
        · exact Or.inl (h.cons c)
        · exact Or.inr (h.cons c)

/-- In a duplicate-free list, a pair cannot occur in both orders. -/
theorem eq_of_pair_sublists_nodup {α : Type} {a b : α} :
    ∀ {l : List α}, l.Nodup → List.Sublist [a, b] l → List.Sublist [b, a] l → a = b := by
  intro l
  induction l with
  | nil =>
    intro _ h1 _
    simp at h1
  | cons c t ih =>
    intro hnd h1 h2
    have hct : c ∉ t := (List.nodup_cons.mp hnd).1
    cases h1 with
    | cons _ h1' =>
      cases h2 with
      | cons _ h2' => exact ih (List.nodup_cons.mp hnd).2 h1' h2'
      | cons₂ _ h2' =>
        exfalso
        have hbt : b ∈ t := h1'.subset (by simp)
        exact hct hbt
    | cons₂ _ h1' =>
      cases h2 with
      | cons _ h2' =>
        exfalso
        have hat : a ∈ t := h2'.subset (by simp)
        exact hct hat
      | cons₂ _ h2' => rfl

/-- The run of rows one ticker contributes to `assembleOrder` is sorted
ascending by date with same-date ties in descending row id: sortedness of
the stable second sort gives the (ticker, date) order, and stability plus
the `ORDER BY date DESC, id DESC` order of the first pass fixes the
date-ties. -/
theorem assembleOrder_pairwise (rows : List Row)
    (hids : (rows.map Row.id).Nodup) :
    (assembleOrder rows).Pairwise
      (fun a b => a.ticker < b.ticker ∨ (a.ticker = b.ticker ∧ actualRowOrder a b)) := by
  have hpermL : List.Perm (getTransactionsOrder rows) rows :=
    List.perm_insertionSort sqlOrderLe rows
  have hpermS : List.Perm (assembleOrder rows) (getTransactionsOrder rows) :=
    List.perm_insertionSort pyKeyLe (getTransactionsOrder rows)
  have hpermSrows : List.Perm (assembleOrder rows) rows := hpermS.trans hpermL
  have hSnodupIds : ((assembleOrder rows).map Row.id).Nodup :=
    ((hpermSrows.map Row.id).nodup_iff).mpr hids
  have hSnodup : (assembleOrder rows).Nodup := List.Nodup.of_map Row.id hSnodupIds
  have hLsorted : (getTransactionsOrder rows).Pairwise sqlOrderLe :=
    List.sorted_insertionSort sqlOrderLe rows
  have hSsorted : (assembleOrder rows).Pairwise pyKeyLe :=
    List.sorted_insertionSort pyKeyLe (getTransactionsOrder rows)
  rw [List.pairwise_iff_forall_sublist]
  intro a b hab
  have hkey : pyKeyLe a b := List.pairwise_iff_forall_sublist.mp hSsorted hab
  have hidsPairwise : ((assembleOrder rows).map Row.id).Pairwise (fun x y => x ≠ y) :=
    hSnodupIds
  have hidne : a.id ≠ b.id := by
    have hsub : List.Sublist [a.id, b.id] ((assembleOrder rows).map Row.id) := by
      have := hab.map Row.id
      simpa using this
    exact List.pairwise_iff_forall_sublist.mp hidsPairwise hsub
  rcases hkey with hlt | ⟨hteq, hdle⟩
  · exact Or.inl hlt
  · refine Or.inr ⟨hteq, ?_⟩
    rcases lt_or_eq_of_le hdle with hdlt | hdeq
    · exact Or.inl hdlt
    · refine Or.inr ⟨hdeq, ?_⟩
      by_contra hnot
      have habid : a.id < b.id := by omega
      have haS : a ∈ assembleOrder rows := hab.subset (by simp)
      have hbS : b ∈ assembleOrder rows := hab.subset (by simp)
      have haL : a ∈ getTransactionsOrder rows := hpermS.subset haS
      have hbL : b ∈ getTransactionsOrder rows := hpermS.subset hbS
      have hne : a ≠ b := fun h => hidne (congrArg Row.id h)
      have hnab : ¬ List.Sublist [a, b] (getTransactionsOrder rows) := by
        intro hc
        have hsql := List.pairwise_iff_forall_sublist.mp hLsorted hc
        unfold sqlOrderLe at hsql
        omega
      have hba : List.Sublist [b, a] (getTransactionsOrder rows) :=
        (pair_sublist_or haL hbL hne).resolve_left hnab
      have hkba : pyKeyLe b a := Or.inr ⟨hteq.symm, le_of_eq hdeq.symm⟩
      have hbaS : List.Sublist [b, a] (assembleOrder rows) :=
        List.pair_sublist_insertionSort hkba hba
      have : b = a := eq_of_pair_sublists_nodup hSnodup hbaS hab
      exact hne this.symm

/-- C7 counterexample.  The claim states same-date ties reach
`compute_position` in ascending row id order.  For two same-ticker,
same-date rows with ids 1 and 2, the pipeline (SQL `ORDER BY date DESC,
id DESC` followed by the stable sort on (ticker, date)) feeds them in the
order id 2, id 1. -/
theorem c7_counterexample :
    (tickerGroup tiedRows 7).map Row.id = [2, 1] ∧
      ¬ (tickerGroup tiedRows 7).Pairwise claimRowOrder := by
  constructor
  · rfl
  · intro h
    have hgroup : tickerGroup tiedRows 7 = [⟨2, 7, 3⟩, ⟨1, 7, 3⟩] := rfl
    rw [hgroup] at h
    have hrel := (List.pairwise_cons.mp h).1 ⟨1, 7, 3⟩ (by simp)
    unfold claimRowOrder at hrel
    simp at hrel

/-- C7 amended.  With distinct row ids, the Portfolio Assembler feeds the
Position Accumulator each ticker's transactions sorted ascending by date,
with same-date ties broken by descending row id (the stable sort preserves
the `ORDER BY date DESC, id DESC` order of `get_transactions` on equal
(ticker, date) keys). -/
theorem c7_amended (rows : List Row) (hids : (rows.map Row.id).Nodup) (t : Nat) :
    (tickerGroup rows t).Pairwise actualRowOrder := by
  have hmain := assembleOrder_pairwise rows hids
  rw [List.pairwise_iff_forall_sublist]
  intro a b hab
  have habS : List.Sublist [a, b] (assembleOrder rows) := hab.trans (List.filter_sublist _)
  have hrel := List.pairwise_iff_forall_sublist.mp hmain habS
  have hat : a.ticker = t := by
    have hmem : a ∈ tickerGroup rows t := hab.subset (by simp)
    simpa using (List.mem_filter.mp hmem).2
  have hbt : b.ticker = t := by
    have hmem : b ∈ tickerGroup rows t := hab.subset (by simp)
    simpa using (List.mem_filter.mp hmem).2
  rcases hrel with hlt | ⟨_, hord⟩
  · exfalso
    rw [hat, hbt] at hlt
    exact lt_irrefl t hlt
  · exact hord

/-- Witness for C7 amended at the two tied rows. -/
theorem c7_amended_witness :
    (tickerGroup tiedRows 7).Pairwise actualRowOrder :=
  c7_amended tiedRows (by simp [tiedRows]) 7

end AssetManager
